import Mathlib

/-!
Verification of the brennivin utility library.

Two parts are modelled:

* the structural comparer `brennivin.pyobjcomparer` (`compare`,
  `get_compound_diff`, `assert_compare`).  The module's own source file is
  not part of the source tree (only its test suite is), so following the
  specification the component is modelled from the spec: Python values are
  shallowly embedded as the inductive `PyVal` over the closed kind set
  Number / Text / Sequence / Set / Mapping / Other, numbers are rationals
  (decimal literals embed exactly), and mappings are association lists kept
  in a canonical, fixed key order (the spec leaves the mapping traversal
  order open and asks implementers to pick a deterministic one).

* the log-file housekeeping helpers `remove_old_files` and `wrap_line` from
  `brennivin/logutils.py`, translated directly from the source.  The
  filesystem (directory listing, mtimes, which removals fail) is explicit
  data; `fnmatch` patterns are modelled as an abstract predicate since
  `fnmatch` is standard-library code outside this repository.
-/

namespace Brennivin

/-- A single quote character, used by the Python `repr` of strings. -/
def squote : String := ⟨[Char.ofNat 39]⟩

/-- Modelled from the spec: a Python numeric scalar (integer or floating
point).  Floats are modelled as the rationals their decimal literals
denote; the spec compares numbers by exact-arithmetic `abs (a - b)`. -/
inductive PyNum where
  | int (n : Int)
  | float (q : ℚ)
deriving DecidableEq

/-- The numeric value of a Python number. -/
def PyNum.toQ : PyNum → ℚ
  | .int n => (n : ℚ)
  | .float q => q

/-- Python `repr` of a number.  Integers print exactly; the float rendering
is abstract (no diff message in the spec or tests shows a float repr). -/
def PyNum.reprStr : PyNum → String
  | .int n => toString n
  | .float q => toString q.num ++ "/" ++ toString q.den

/-- Modelled from the spec: the closed value-kind set of §9 — numeric
scalar, text string, ordered sequence (list- or tuple-like), set-like
collection, key-value mapping, and arbitrary other object.  An `obj`
carries its type name and its repr; its own equality is equality of both
(matching `type(a) == type(b) and a == b` for well-behaved objects).
Mappings are kept as association lists in a canonical fixed key order with
unique keys (the representation invariant `DictWF` below). -/
inductive PyVal where
  | num (n : PyNum)
  | str (s : String)
  | list (xs : List PyVal)
  | set (xs : List PyVal)
  | dict (kvs : List (String × PyVal))
  | obj (ty : String) (rep : String)

/-- Structural induction for `PyVal` with membership hypotheses for the
nested lists. -/
def PyVal.strongInduction {P : PyVal → Prop}
    (hnum : ∀ n, P (.num n))
    (hstr : ∀ s, P (.str s))
    (hlist : ∀ xs, (∀ x ∈ xs, P x) → P (.list xs))
    (hset : ∀ xs, (∀ x ∈ xs, P x) → P (.set xs))
    (hdict : ∀ kvs, (∀ kv ∈ kvs, P (Prod.snd kv)) → P (.dict kvs))
    (hobj : ∀ t r, P (.obj t r)) : ∀ a, P a
  | .num n => hnum n
  | .str s => hstr s
  | .list xs => hlist xs (fun x _ =>
      PyVal.strongInduction hnum hstr hlist hset hdict hobj x)
  | .set xs => hset xs (fun x _ =>
      PyVal.strongInduction hnum hstr hlist hset hdict hobj x)
  | .dict kvs => hdict kvs (fun kv _ =>
      PyVal.strongInduction hnum hstr hlist hset hdict hobj kv.2)
  | .obj t r => hobj t r
termination_by a => sizeOf a
decreasing_by
  · have := List.sizeOf_lt_of_mem (by assumption : x ∈ xs)
    simp only [PyVal.list.sizeOf_spec]; omega
  · have := List.sizeOf_lt_of_mem (by assumption : x ∈ xs)
    simp only [PyVal.set.sizeOf_spec]; omega
  · have h1 := List.sizeOf_lt_of_mem (by assumption : kv ∈ kvs)
    obtain ⟨k, v⟩ := kv
    simp only [PyVal.dict.sizeOf_spec, Prod.mk.sizeOf_spec] at *
    omega

mutual

/-- Modelled from the spec: Python's own deep `==` between values, used by
the set-equality rule ("relies on element hashability/equality").  Numbers
compare across int/float by value; containers compare category-strict. -/
def pyEq : PyVal → PyVal → Bool
  | .num a, .num b => a.toQ == b.toQ
  | .str s, .str t => s == t
  | .list xs, .list ys => pyEqList xs ys
  | .set xs, .set ys =>
      xs.length == ys.length && pyEqSubset xs ys && pyEqSubset ys xs
  | .dict d1, .dict d2 => pyEqDict d1 d2
  | .obj t1 r1, .obj t2 r2 => t1 == t2 && r1 == r2
  | _, _ => false
termination_by a b => sizeOf a + sizeOf b

/-- Element-wise `pyEq` on lists. -/
def pyEqList : List PyVal → List PyVal → Bool
  | [], [] => true
  | x :: xs, y :: ys => pyEq x y && pyEqList xs ys
  | _, _ => false
termination_by xs ys => sizeOf xs + sizeOf ys

/-- Is `x` `pyEq`-equal to some element of the list? -/
def pyEqMem (x : PyVal) : List PyVal → Bool
  | [] => false
  | y :: ys => pyEq x y || pyEqMem x ys
termination_by ys => sizeOf x + sizeOf ys

/-- Is every element of the first list `pyEq`-present in the second? -/
def pyEqSubset : List PyVal → List PyVal → Bool
  | [], _ => true
  | x :: xs, ys => pyEqMem x ys && pyEqSubset xs ys
termination_by xs ys => sizeOf xs + sizeOf ys

/-- Pairwise `pyEq` on canonical association lists. -/
def pyEqDict : List (String × PyVal) → List (String × PyVal) → Bool
  | [], [] => true
  | (k1, v1) :: r1, (k2, v2) :: r2 => k1 == k2 && pyEq v1 v2 && pyEqDict r1 r2
  | _, _ => false
termination_by d1 d2 => sizeOf d1 + sizeOf d2

end

/-- Modelled from the spec: the default comparison tolerance, `1e-6`. -/
def defaultTolerance : ℚ := 1 / 1000000

mutual

/-- Modelled from the spec (the source module `brennivin/pyobjcomparer.py`
is absent from the tree): `compare(a, b, tolerance)`.  Dispatch rules,
first match wins: both numeric — `abs (a - b) <= tolerance`; both mappings
— same key set and value-wise `compare`; both ordered sequences — same
length and element-wise `compare`; both sets — same cardinality and same
elements under Python's own (non tolerance-aware) equality; both strings —
exact equality; otherwise the values' own equality, which across
categories is `false`.  Total: mismatched categories yield `false`, never
an error. -/
def compare (tol : ℚ) : PyVal → PyVal → Bool
  | .num a, .num b => decide (|a.toQ - b.toQ| ≤ tol)
  | .dict d1, .dict d2 => compareDict tol d1 d2
  | .list xs, .list ys => compareList tol xs ys
  | .set xs, .set ys =>
      xs.length == ys.length && pyEqSubset xs ys && pyEqSubset ys xs
  | .str s, .str t => s == t
  | .obj t1 r1, .obj t2 r2 => t1 == t2 && r1 == r2
  | _, _ => false
termination_by a => sizeOf a

/-- Element-wise `compare`; lists of different lengths are unequal. -/
def compareList (tol : ℚ) : List PyVal → List PyVal → Bool
  | [], [] => true
  | x :: xs, y :: ys => compare tol x y && compareList tol xs ys
  | _, _ => false
termination_by xs => sizeOf xs

/-- Key- and value-wise `compare` of canonical association lists: since
both mappings hold their keys in the one canonical order, same key set is
the same key sequence. -/
def compareDict (tol : ℚ) : List (String × PyVal) → List (String × PyVal) → Bool
  | [], [] => true
  | (k1, v1) :: r1, (k2, v2) :: r2 =>
      k1 == k2 && compare tol v1 v2 && compareDict tol r1 r2
  | _, _ => false
termination_by d1 => sizeOf d1

end

mutual

/-- Python `repr` of a value, as used in diff messages. -/
def pyRepr : PyVal → String
  | .num n => n.reprStr
  | .str s => squote ++ s ++ squote
  | .list xs => "[" ++ pyReprList xs ++ "]"
  | .set xs => "\x7b" ++ pyReprList xs ++ "\x7d"
  | .dict d => "\x7b" ++ pyReprDict d ++ "\x7d"
  | .obj _ rep => rep
termination_by a => sizeOf a

/-- Comma-separated reprs of list elements. -/
def pyReprList : List PyVal → String
  | [] => ""
  | [x] => pyRepr x
  | x :: xs => pyRepr x ++ ", " ++ pyReprList xs
termination_by xs => sizeOf xs

/-- Comma-separated `'key': value` reprs of mapping items. -/
def pyReprDict : List (String × PyVal) → String
  | [] => ""
  | [(k, v)] => squote ++ k ++ squote ++ ": " ++ pyRepr v
  | (k, v) :: r => squote ++ k ++ squote ++ ": " ++ pyRepr v ++ ", " ++ pyReprDict r
termination_by d => sizeOf d

end

/-- The Python type name of a value, as used in the category-mismatch
diff messages (`"list is not a dict"`, `"sphere is not a dict"`, ...). -/
def typeName : PyVal → String
  | .num (.int _) => "int"
  | .num (.float _) => "float"
  | .str _ => "str"
  | .list _ => "list"
  | .set _ => "set"
  | .dict _ => "dict"
  | .obj ty _ => ty

/-- The key sequence of a mapping. -/
def dictKeys (d : List (String × PyVal)) : List String := d.map Prod.fst

/-- Python `repr` of a mapping's key list, as in the dict length-mismatch
message. -/
def keysRepr (d : List (String × PyVal)) : String :=
  "[" ++ String.intercalate ", " (dictKeys d |>.map (fun k => squote ++ k ++ squote)) ++ "]"

/-- Python `a[key]` on a mapping: the value stored at the key, if any. -/
def lookupKey (k : String) : List (String × PyVal) → Option PyVal
  | [] => none
  | (k2, v) :: r => if k2 = k then some v else lookupKey k r

/-- A segment of a diff path (breadcrumb): a mapping key, a sequence
index, or the final human-readable mismatch description.  This embeds the
heterogeneous Python list of strings and ints. -/
inductive Seg where
  | key (k : String)
  | idx (i : Nat)
  | msg (m : String)
deriving DecidableEq

mutual

/-- Modelled from the spec (the source module `brennivin/pyobjcomparer.py`
is absent from the tree): `get_compound_diff(a, b)` — empty sequence iff
`compare(a, b)` at the default tolerance; otherwise the path to the first
divergence under the deterministic walk (ascending index for sequences,
the canonical key order for mappings), ending in a terminal message:
`"len neq (m != n): ... != ..."` for length mismatches,
`"<typename> is not a dict"` / `"... is not a list"` for container
category mismatches, and `"<repr a> != <repr b>"` for leaf mismatches. -/
def get_compound_diff : PyVal → PyVal → List Seg
  | .num a, .num b =>
      if |a.toQ - b.toQ| ≤ defaultTolerance then []
      else [.msg (a.reprStr ++ " != " ++ b.reprStr)]
  | .dict d1, .dict d2 =>
      if dictKeys d1 = dictKeys d2 then diffDict d1 d2
      else if d1.length = d2.length then
        [.msg (pyRepr (.dict d1) ++ " != " ++ pyRepr (.dict d2))]
      else
        [.msg ("len neq (" ++ toString d1.length ++ " != " ++ toString d2.length
               ++ "): " ++ keysRepr d1 ++ " != " ++ keysRepr d2)]
  | .dict _, b => [.msg (typeName b ++ " is not a dict")]
  | .list xs, .list ys =>
      if xs.length = ys.length then diffList 0 xs ys
      else
        [.msg ("len neq (" ++ toString xs.length ++ " != " ++ toString ys.length
               ++ "): " ++ pyRepr (.list xs) ++ " != " ++ pyRepr (.list ys))]
  | .list _, b => [.msg (typeName b ++ " is not a list")]
  | .set xs, .set ys =>
      if (xs.length == ys.length && pyEqSubset xs ys && pyEqSubset ys xs) = true
      then []
      else [.msg (pyRepr (.set xs) ++ " != " ++ pyRepr (.set ys))]
  | .set _, b => [.msg (typeName b ++ " is not a set")]
  | .str s, .str t =>
      if s = t then []
      else [.msg (pyRepr (.str s) ++ " != " ++ pyRepr (.str t))]
  | .obj t1 r1, .obj t2 r2 =>
      if t1 = t2 ∧ r1 = r2 then [] else [.msg (r1 ++ " != " ++ r2)]
  | a, b => [.msg (pyRepr a ++ " != " ++ pyRepr b)]
termination_by a => sizeOf a

/-- Walk two same-length sequences by ascending index; prepend the index
of the first differing element to its diff. -/
def diffList (i : Nat) : List PyVal → List PyVal → List Seg
  | [], _ => []
  | _, [] => []
  | x :: xs, y :: ys =>
      let d := get_compound_diff x y
      if d.isEmpty then diffList (i + 1) xs ys else .idx i :: d
termination_by xs => sizeOf xs

/-- Walk two same-key-sequence mappings in canonical key order; prepend
the first differing key to its value diff. -/
def diffDict : List (String × PyVal) → List (String × PyVal) → List Seg
  | [], _ => []
  | _, [] => []
  | (k, v) :: r1, (_, w) :: r2 =>
      let d := get_compound_diff v w
      if d.isEmpty then diffDict r1 r2 else .key k :: d
termination_by d1 => sizeOf d1

end

/-- Python `repr` of a diff path, as embedded in the assertion message. -/
def segRepr : Seg → String
  | .key k => squote ++ k ++ squote
  | .idx i => toString i
  | .msg m => squote ++ m ++ squote

/-- Python `repr` of the whole breadcrumb list. -/
def diffRepr (segs : List Seg) : String :=
  "[" ++ String.intercalate ", " (segs.map segRepr) ++ "]"

/-- Modelled from the spec: the assertion failure message — always carries
the diff path from `get_compound_diff`; when `printObjs` is set it
additionally embeds the full string representations of both objects. -/
def assertMessage (a b : PyVal) (printObjs : Bool) : String :=
  "Objects differ: " ++ diffRepr (get_compound_diff a b)
    ++ (if printObjs then ", objects: " ++ pyRepr a ++ ", " ++ pyRepr b else "")

/-- Modelled from the spec (the source module `brennivin/pyobjcomparer.py`
is absent from the tree): `assert_compare(a, b, print_objs_on_fail)` —
raises an assertion error (modelled as `Except.error`) exactly when
`compare(a, b)` at the default tolerance is false. -/
def assert_compare (a b : PyVal) (printObjs : Bool := true) : Except String Unit :=
  if compare defaultTolerance a b then .ok () else .error (assertMessage a b printObjs)

/-- `sub` occurs as a contiguous substring of `s` ("the message contains
..."). -/
def strContains (s sub : String) : Prop := sub.data <:+: s.data

/-- Modelled from the spec: the value-kind enumeration of §9 (Number,
Text, Sequence, Set, Mapping, Other). -/
inductive Kind where
  | number
  | text
  | sequence
  | setK
  | mapping
  | other
deriving DecidableEq

/-- The structural kind of a value. -/
def kindOf : PyVal → Kind
  | .num _ => .number
  | .str _ => .text
  | .list _ => .sequence
  | .set _ => .setK
  | .dict _ => .mapping
  | .obj _ _ => .other

namespace Logutils

/-- The directory state seen by `remove_old_files`: the `os.listdir`
result paired with each file's mtime, plus which `os.remove` calls raise
`OSError`/`IOError`.  `fnmatch` patterns are abstracted as a predicate
(the `fnmatch` module is Python standard-library code, not part of this
repository). -/
structure Dir where
  entries : List (String × Int)
  removeFails : String → Bool

/-- Stable insertion step of the descending-by-mtime sort: the inserted
element passes over an element only when its mtime is strictly smaller,
so, as with Python's stable `list.sort(key=getmtime, reverse=True)`,
elements with equal mtimes stay in listing order. -/
def insertDesc (x : String × Int) : List (String × Int) → List (String × Int)
  | [] => [x]
  | y :: ys => if x.2 < y.2 then y :: insertDesc x ys else x :: y :: ys

/-- Stable sort, newest (largest mtime) first, modelling
`lstFiles.sort(key=os.path.getmtime, reverse=True)`. -/
def sortDesc : List (String × Int) → List (String × Int)
  | [] => []
  | x :: xs => insertDesc x (sortDesc xs)

/-- The pattern-matching files of the directory, newest first — the
`lstFiles` list of `remove_old_files` after its sort. -/
def lstFiles (dir : Dir) (namePattern : String → Bool) : List (String × Int) :=
  sortDesc (dir.entries.filter (fun e => namePattern e.1))

/-- The per-file removal loop: `os.remove(f)` inside
`try: ... except (OSError, IOError): pass` — a failing removal is
swallowed and the loop continues.  Returns the successfully removed
files. -/
def removeEach (fails : String → Bool) : List String → List String
  | [] => []
  | f :: fs => if fails f then removeEach fails fs else f :: removeEach fails fs

/-- `logutils.remove_old_files(rootDir, namePattern, maxFiles)`: raise
`ValueError` (modelled as `Except.error`) for negative `maxFiles`;
otherwise keep the `maxFiles` newest matches and try to remove every
older match.  Returns the successfully removed files. -/
def remove_old_files (dir : Dir) (namePattern : String → Bool) (maxFiles : Int) :
    Except String (List String) :=
  if maxFiles < 0 then
    .error ("maxFiles must be >= 0, got " ++ toString maxFiles)
  else
    .ok (removeEach dir.removeFails
      (((lstFiles dir namePattern).drop maxFiles.toNat).map Prod.fst))

/-- Python index clamping for a slice endpoint: negative indices count
from the end, and endpoints are clamped into `[0, len]`. -/
def pyIdx (len : Nat) (i : Int) : Nat :=
  if i < 0 then ((len : Int) + i).toNat else min i.toNat len

/-- Python slice `s[lo:hi]` (step 1). -/
def pySlice (s : List Char) (lo hi : Int) : List Char :=
  (s.take (pyIdx s.length hi)).drop (pyIdx s.length lo)

/-- The `while i < e and maxlines:` loop of `wrap_line`, yielding
`pfx + s[i:i + maxlen]` and advancing `i += maxlen`, `maxlines -= 1`.
`maxlines` is an `Int` because Python tests it for truthiness: starting
at 0 ("no limit") it is decremented to -1 and stays truthy.  The loop is
driven by explicit fuel; whenever the prefix is shorter than the original
`maxlen` the step is at least 1, so `|s| + 1` units of fuel are never
exhausted (without that, the Python loop itself does not terminate). -/
def wrapLoop (s : List Char) (pfx : List Char) (maxlen : Int) :
    Nat → Int → Int → List (List Char)
  | 0, _, _ => []
  | fuel + 1, i, maxlines =>
      if i < (s.length : Int) ∧ maxlines ≠ 0 then
        (pfx ++ pySlice s i (i + maxlen))
          :: wrapLoop s pfx maxlen fuel (i + maxlen) (maxlines - 1)
      else []

/-- `logutils.wrap_line(s, maxlines, maxlen, pfx)`: if `s` fits in
`maxlen` yield it whole; otherwise yield `s[:maxlen]`, shrink `maxlen` by
the prefix length, consume one line of the budget, and run the wrap
loop. -/
def wrap_line (s : List Char) (maxlines : Int) (maxlen : Int := 254)
    (pfx : List Char := ("- ").data) : List (List Char) :=
  if (s.length : Int) ≤ maxlen then [s]
  else
    pySlice s 0 maxlen ::
      wrapLoop s pfx (maxlen - (pfx.length : Int)) (s.length + 1) maxlen (maxlines - 1)

end Logutils

/-! ### Reflexivity of the equality notions -/

theorem pyEqMem_of_mem {x : PyVal} {ys : List PyVal} (hmem : x ∈ ys)
    (hx : pyEq x x = true) : pyEqMem x ys = true := by
  induction ys with
  | nil => cases hmem
  | cons y ys ih =>
      rw [pyEqMem]
      rcases List.mem_cons.mp hmem with h | h
      · rw [← h, hx, Bool.true_or]
      · rw [ih h, Bool.or_true]

theorem pyEqSubset_of_forall {xs ys : List PyVal}
    (h : ∀ x ∈ xs, pyEqMem x ys = true) : pyEqSubset xs ys = true := by
  induction xs with
  | nil => rw [pyEqSubset]
  | cons x xs ih =>
      rw [pyEqSubset, h x (List.mem_cons_self x xs),
        ih (fun z hz => h z (List.mem_cons_of_mem x hz)), Bool.and_self]

theorem pyEqList_refl {xs : List PyVal} (h : ∀ x ∈ xs, pyEq x x = true) :
    pyEqList xs xs = true := by
  induction xs with
  | nil => rw [pyEqList]
  | cons x xs ih =>
      rw [pyEqList, h x (List.mem_cons_self x xs),
        ih (fun z hz => h z (List.mem_cons_of_mem x hz)), Bool.and_self]

theorem pyEqDict_refl {d : List (String × PyVal)}
    (h : ∀ kv ∈ d, pyEq kv.2 kv.2 = true) : pyEqDict d d = true := by
  induction d with
  | nil => rw [pyEqDict]
  | cons kv d ih =>
      obtain ⟨k, v⟩ := kv
      rw [pyEqDict, h (k, v) (List.mem_cons_self _ _),
        ih (fun z hz => h z (List.mem_cons_of_mem _ hz))]
      simp

theorem pyEq_refl : ∀ a, pyEq a a = true := by
  intro a
  induction a using PyVal.strongInduction with
  | hnum n => simp [pyEq]
  | hstr s => simp [pyEq]
  | hobj t r => simp [pyEq]
  | hlist xs ih => rw [pyEq]; exact pyEqList_refl ih
  | hdict kvs ih => rw [pyEq]; exact pyEqDict_refl ih
  | hset xs ih =>
      rw [pyEq]
      have hsub : pyEqSubset xs xs = true :=
        pyEqSubset_of_forall (fun x hx => pyEqMem_of_mem hx (ih x hx))
      simp [hsub]

theorem compareList_refl {tol : ℚ} {xs : List PyVal}
    (h : ∀ x ∈ xs, compare tol x x = true) : compareList tol xs xs = true := by
  induction xs with
  | nil => rw [compareList]
  | cons x xs ih =>
      rw [compareList, h x (List.mem_cons_self x xs),
        ih (fun z hz => h z (List.mem_cons_of_mem x hz)), Bool.and_self]

theorem compareDict_refl {tol : ℚ} {d : List (String × PyVal)}
    (h : ∀ kv ∈ d, compare tol kv.2 kv.2 = true) : compareDict tol d d = true := by
  induction d with
  | nil => rw [compareDict]
  | cons kv d ih =>
      obtain ⟨k, v⟩ := kv
      rw [compareDict, h (k, v) (List.mem_cons_self _ _),
        ih (fun z hz => h z (List.mem_cons_of_mem _ hz))]
      simp

/-- `compare` is reflexive for any non-negative tolerance. -/
theorem compare_refl {tol : ℚ} (htol : 0 ≤ tol) : ∀ a, compare tol a a = true := by
  intro a
  induction a using PyVal.strongInduction with
  | hnum n => simp [compare, htol]
  | hstr s => simp [compare]
  | hobj t r => simp [compare]
  | hlist xs ih => rw [compare]; exact compareList_refl ih
  | hdict kvs ih => rw [compare]; exact compareDict_refl ih
  | hset xs ih =>
      rw [compare]
      have hsub : pyEqSubset xs xs = true :=
        pyEqSubset_of_forall (fun x hx => pyEqMem_of_mem hx (pyEq_refl x))
      simp [hsub]

/-! ### Symmetry of `compare` -/

theorem beq_swap {α} [BEq α] [LawfulBEq α] (a b : α) : (a == b) = (b == a) := by
  by_cases h : a = b
  · rw [h]
  · rw [beq_eq_false_iff_ne.mpr h, beq_eq_false_iff_ne.mpr (Ne.symm h)]

theorem compareList_symm {tol : ℚ} {xs : List PyVal}
    (ih : ∀ x ∈ xs, ∀ b, compare tol x b = compare tol b x) :
    ∀ ys, compareList tol xs ys = compareList tol ys xs := by
  induction xs with
  | nil => intro ys; cases ys <;> simp [compareList]
  | cons x xs ihx =>
      intro ys
      cases ys with
      | nil => simp [compareList]
      | cons y ys =>
          rw [compareList, compareList, ih x (List.mem_cons_self x xs) y,
            ihx (fun z hz b => ih z (List.mem_cons_of_mem x hz) b) ys]

theorem compareDict_symm {tol : ℚ} {d1 : List (String × PyVal)}
    (ih : ∀ kv ∈ d1, ∀ b, compare tol (Prod.snd kv) b = compare tol b (Prod.snd kv)) :
    ∀ d2, compareDict tol d1 d2 = compareDict tol d2 d1 := by
  induction d1 with
  | nil => intro d2; cases d2 <;> simp [compareDict]
  | cons kv d1 ihd =>
      intro d2
      obtain ⟨k, v⟩ := kv
      cases d2 with
      | nil => simp [compareDict]
      | cons kw d2 =>
          obtain ⟨k2, w⟩ := kw
          rw [compareDict, compareDict, ih (k, v) (List.mem_cons_self _ _) w,
            ihd (fun z hz b => ih z (List.mem_cons_of_mem _ hz) b) d2,
            beq_swap k k2]

/-- `compare` is symmetric. -/
theorem compare_symm (tol : ℚ) : ∀ a b, compare tol a b = compare tol b a := by
  intro a
  induction a using PyVal.strongInduction with
  | hnum n => intro b; cases b <;> simp [compare, abs_sub_comm]
  | hstr s =>
      intro b
      cases b <;> simp only [compare]
      next t => rw [beq_swap s t]
  | hobj t r =>
      intro b
      cases b <;> simp only [compare]
      next ty rep => rw [beq_swap t ty, beq_swap r rep]
  | hlist xs ih =>
      intro b
      cases b <;> simp only [compare]
      exact compareList_symm ih _
  | hdict kvs ih =>
      intro b
      cases b <;> simp only [compare]
      exact compareDict_symm ih _
  | hset xs ih =>
      intro b
      cases b <;> simp only [compare]
      cases h1 : pyEqSubset xs _ <;> cases h2 : pyEqSubset _ xs <;>
        simp [h1, h2, eq_comm]

/-! ### The diff path is empty exactly when `compare` succeeds -/

theorem compareList_length {tol : ℚ} :
    ∀ {xs ys : List PyVal}, compareList tol xs ys = true → xs.length = ys.length := by
  intro xs
  induction xs with
  | nil => intro ys h; cases ys with
    | nil => rfl
    | cons y ys => simp [compareList] at h
  | cons x xs ih =>
      intro ys h
      cases ys with
      | nil => simp [compareList] at h
      | cons y ys =>
          rw [compareList, Bool.and_eq_true] at h
          simp [ih h.2]

theorem compareDict_keys {tol : ℚ} :
    ∀ {d1 d2 : List (String × PyVal)},
      compareDict tol d1 d2 = true → dictKeys d1 = dictKeys d2 := by
  intro d1
  induction d1 with
  | nil => intro d2 h; cases d2 with
    | nil => rfl
    | cons kw d2 => obtain ⟨k2, w⟩ := kw; simp [compareDict] at h
  | cons kv d1 ih =>
      intro d2 h
      obtain ⟨k, v⟩ := kv
      cases d2 with
      | nil => simp [compareDict] at h
      | cons kw d2 =>
          obtain ⟨k2, w⟩ := kw
          rw [compareDict, Bool.and_eq_true, Bool.and_eq_true] at h
          have hk : k = k2 := by simpa using h.1.1
          simp [dictKeys] at ih ⊢
          exact ⟨hk, ih h.2⟩

theorem diffList_nil_iff {xs : List PyVal}
    (ih : ∀ x ∈ xs, ∀ b, get_compound_diff x b = [] ↔ compare defaultTolerance x b = true) :
    ∀ {ys : List PyVal}, xs.length = ys.length →
      ∀ i, (diffList i xs ys = [] ↔ compareList defaultTolerance xs ys = true) := by
  induction xs with
  | nil =>
      intro ys hlen i
      cases ys with
      | nil => simp [diffList, compareList]
      | cons y ys => simp at hlen
  | cons x xs ihx =>
      intro ys hlen i
      cases ys with
      | nil => simp at hlen
      | cons y ys =>
          have hlen2 : xs.length = ys.length := by simpa using hlen
          simp only [diffList, compareList]
          by_cases hd : get_compound_diff x y = []
          · have hc := (ih x (List.mem_cons_self x xs) y).mp hd
            simp only [hd, List.isEmpty_nil, if_pos rfl, hc, Bool.true_and]
            exact ihx (fun z hz b => ih z (List.mem_cons_of_mem x hz) b) hlen2 (i + 1)
          · have hc : compare defaultTolerance x y ≠ true :=
              fun h => hd ((ih x (List.mem_cons_self x xs) y).mpr h)
            simp [hd, List.isEmpty_iff, hc]

theorem diffDict_nil_iff {d1 : List (String × PyVal)}
    (ih : ∀ kv ∈ d1, ∀ b,
      get_compound_diff (Prod.snd kv) b = [] ↔ compare defaultTolerance (Prod.snd kv) b = true) :
    ∀ {d2 : List (String × PyVal)}, dictKeys d1 = dictKeys d2 →
      (diffDict d1 d2 = [] ↔ compareDict defaultTolerance d1 d2 = true) := by
  induction d1 with
  | nil =>
      intro d2 hk
      cases d2 with
      | nil => simp [diffDict, compareDict]
      | cons kw d2 => simp [dictKeys] at hk
  | cons kv d1 ihd =>
      intro d2 hk
      obtain ⟨k, v⟩ := kv
      cases d2 with
      | nil => simp [dictKeys] at hk
      | cons kw d2 =>
          obtain ⟨k2, w⟩ := kw
          have hkk : k = k2 ∧ dictKeys d1 = dictKeys d2 := by simpa [dictKeys] using hk
          simp only [diffDict, compareDict]
          by_cases hd : get_compound_diff v w = []
          · have hc := (ih (k, v) (List.mem_cons_self _ _) w).mp hd
            simp only [hd, List.isEmpty_nil, if_pos rfl, hc, hkk.1, beq_self_eq_true,
              Bool.true_and]
            exact ihd (fun z hz b => ih z (List.mem_cons_of_mem _ hz) b) hkk.2
          · have hc : compare defaultTolerance v w ≠ true :=
              fun h => hd ((ih (k, v) (List.mem_cons_self _ _) w).mpr h)
            simp [hd, List.isEmpty_iff, hc]

/-- The central mirror property: the diff path is empty exactly when
`compare` at the default tolerance succeeds. -/
theorem diff_nil_iff_compare :
    ∀ a b, get_compound_diff a b = [] ↔ compare defaultTolerance a b = true := by
  intro a
  induction a using PyVal.strongInduction with
  | hnum n =>
      intro b
      cases b <;> simp only [get_compound_diff, compare] <;> simp
  | hstr s =>
      intro b
      cases b <;> simp only [get_compound_diff, compare] <;> simp
  | hobj t r =>
      intro b
      cases b <;> simp only [get_compound_diff, compare] <;> simp
  | hset xs ih =>
      intro b
      cases b <;> simp only [get_compound_diff, compare] <;> try simp
      tauto
  | hlist xs ih =>
      intro b
      cases b with
      | num m => simp [get_compound_diff, compare]
      | str s => simp [get_compound_diff, compare]
      | set ys => simp [get_compound_diff, compare]
      | dict d => simp [get_compound_diff, compare]
      | obj t r => simp [get_compound_diff, compare]
      | list ys =>
          simp only [get_compound_diff, compare]
          by_cases hlen : xs.length = ys.length
          · rw [if_pos hlen]
            exact diffList_nil_iff ih hlen 0
          · have hc : compareList defaultTolerance xs ys ≠ true :=
              fun h => hlen (compareList_length h)
            simp [hlen, hc]
  | hdict kvs ih =>
      intro b
      cases b with
      | num m => simp [get_compound_diff, compare]
      | str s => simp [get_compound_diff, compare]
      | set ys => simp [get_compound_diff, compare]
      | list ys => simp [get_compound_diff, compare]
      | obj t r => simp [get_compound_diff, compare]
      | dict d2 =>
          simp only [get_compound_diff, compare]
          by_cases hk : dictKeys kvs = dictKeys d2
          · rw [if_pos hk]
            exact diffDict_nil_iff ih hk
          · have hc : compareDict defaultTolerance kvs d2 ≠ true :=
              fun h => hk (compareDict_keys h)
            rw [if_neg hk]
            split <;> simp [hc]

/-! ### Element-wise characterisation of sequence comparison -/

theorem compareList_iff {tol : ℚ} :
    ∀ {xs ys : List PyVal}, compareList tol xs ys = true ↔
      (xs.length = ys.length ∧
        ∀ (i : Nat) (h1 : i < xs.length) (h2 : i < ys.length),
          compare tol (xs.get ⟨i, h1⟩) (ys.get ⟨i, h2⟩) = true) := by
  intro xs
  induction xs with
  | nil => intro ys; cases ys <;> simp [compareList]
  | cons x xs ih =>
      intro ys
      cases ys with
      | nil => simp [compareList]
      | cons y ys =>
          rw [compareList, Bool.and_eq_true, ih]
          constructor
          · rintro ⟨h1, hlen, hall⟩
            refine ⟨by simp [hlen], ?_⟩
            intro i hi1 hi2
            cases i with
            | zero => exact h1
            | succ j => exact hall j (by simpa using hi1) (by simpa using hi2)
          · rintro ⟨hlen, hall⟩
            refine ⟨hall 0 (by simp) (by simp), by simpa using hlen, ?_⟩
            intro j hj1 hj2
            exact hall (j + 1) (by simpa using hj1) (by simpa using hj2)

/-! ### Claim theorems for the structural comparer -/

/-- C1: `get_compound_diff(a, b)` returns the empty sequence iff
`compare(a, b)` at the default tolerance is true; in particular
`get_compound_diff(a, a) == []` for every value `a`. -/
theorem c1_diff_empty_iff_compare :
    (∀ a b, get_compound_diff a b = [] ↔ compare defaultTolerance a b = true)
    ∧ (∀ a, get_compound_diff a a = []) :=
  ⟨diff_nil_iff_compare, fun a =>
    (diff_nil_iff_compare a a).mpr
      (compare_refl (by norm_num [defaultTolerance]) a)⟩

/-- C2: when both arguments are numbers (int or float, in any
combination), `compare(a, b, tolerance)` is true iff
`abs (a - b) ≤ tolerance`, boundary inclusive: `compare(0, 1, 1)` is
true, `compare(0, 1.0000001, 1)` is false, and `compare(1, 1.0)` is true
at the default tolerance. -/
theorem c2_numeric_tolerance :
    (∀ (x y : PyNum) (tol : ℚ),
        compare tol (.num x) (.num y) = true ↔ |x.toQ - y.toQ| ≤ tol)
    ∧ compare 1 (.num (.int 0)) (.num (.int 1)) = true
    ∧ compare 1 (.num (.int 0)) (.num (.float (10000001 / 10000000))) = false
    ∧ compare defaultTolerance (.num (.int 1)) (.num (.float 1)) = true := by
  refine ⟨fun x y tol => by simp [compare], ?_, ?_, ?_⟩
  · simp [compare, PyNum.toQ]
  · simp [compare, PyNum.toQ]
    rw [abs_of_nonneg (by norm_num : (0 : ℚ) ≤ 10000001 / 10000000)]
    norm_num
  · simp [compare, PyNum.toQ, defaultTolerance]

/-- C3: the concrete first-divergence paths:
`get_compound_diff({'value': [0, 0]}, {'value': [0, 1]})` is
`['value', 1, '0 != 1']`; `get_compound_diff([{}], [[]])` is
`[0, 'list is not a dict']`; and
`get_compound_diff([[1, 2]], [[1, 2, 3]])` is
`[0, 'len neq (2 != 3): [1, 2] != [1, 2, 3]']`. -/
theorem c3_concrete_diffs :
    get_compound_diff
        (.dict [("value", .list [.num (.int 0), .num (.int 0)])])
        (.dict [("value", .list [.num (.int 0), .num (.int 1)])])
      = [.key "value", .idx 1, .msg "0 != 1"]
    ∧ get_compound_diff (.list [.dict []]) (.list [.list []])
      = [.idx 0, .msg "list is not a dict"]
    ∧ get_compound_diff
        (.list [.list [.num (.int 1), .num (.int 2)]])
        (.list [.list [.num (.int 1), .num (.int 2), .num (.int 3)]])
      = [.idx 0, .msg "len neq (2 != 3): [1, 2] != [1, 2, 3]"] := by
  refine ⟨?_, ?_, ?_⟩
  · simp [get_compound_diff, diffList, diffDict, dictKeys, PyNum.toQ,
      PyNum.reprStr, defaultTolerance]
    norm_num
    rfl
  · simp [get_compound_diff, diffList, typeName]
  · simp [get_compound_diff, diffList, pyRepr, pyReprList, PyNum.reprStr]
    rfl

/-- C5: when both arguments are ordered sequences of the same length,
`compare` is true iff `compare` holds pairwise at each index; sequences
of different lengths always compare unequal (the right-hand side is then
false). -/
theorem c5_sequences :
    ∀ (tol : ℚ) (xs ys : List PyVal),
      compare tol (.list xs) (.list ys) = true ↔
        (xs.length = ys.length ∧
          ∀ (i : Nat) (h1 : i < xs.length) (h2 : i < ys.length),
            compare tol (xs.get ⟨i, h1⟩) (ys.get ⟨i, h2⟩) = true) := by
  intro tol xs ys
  rw [compare]
  exact compareList_iff

/-- C5 witness: a concrete element-wise comparison of two two-element
sequences. -/
theorem c5_sequences_witness :
    compare 1 (.list [.num (.int 1), .num (.int 2)])
        (.list [.num (.int 1), .num (.int 2)]) = true :=
  (c5_sequences 1 _ _).mpr ⟨rfl, by
    intro i h1 h2
    have hi : i < 2 := by simpa using h1
    interval_cases i <;> simp [compare, PyNum.toQ]⟩

/-- C7: `compare` is symmetric: `compare(a, b) == compare(b, a)` for all
values and tolerances. -/
theorem c7_symm : ∀ (tol : ℚ) (a b : PyVal), compare tol a b = compare tol b a :=
  fun tol a b => compare_symm tol a b

/-! ### Key-wise characterisation of mapping comparison -/

theorem mem_dictKeys_of_lookupKey {k : String} :
    ∀ {d : List (String × PyVal)} {v : PyVal},
      lookupKey k d = some v → k ∈ dictKeys d := by
  intro d
  induction d with
  | nil => intro v h; simp [lookupKey] at h
  | cons kv d ih =>
      intro v h
      obtain ⟨k2, w⟩ := kv
      rw [lookupKey] at h
      by_cases hk : k2 = k
      · simp [dictKeys, hk]
      · rw [if_neg hk] at h
        simp [dictKeys]
        exact Or.inr (by simpa [dictKeys] using ih h)

theorem compareDict_lookup {tol : ℚ} :
    ∀ {d1 d2 : List (String × PyVal)}, compareDict tol d1 d2 = true →
      ∀ k v w, lookupKey k d1 = some v → lookupKey k d2 = some w →
        compare tol v w = true := by
  intro d1
  induction d1 with
  | nil => intro d2 _ k v w hv _; simp [lookupKey] at hv
  | cons kv d1 ih =>
      intro d2 h k v w hv hw
      obtain ⟨k1, v1⟩ := kv
      cases d2 with
      | nil => simp [lookupKey] at hw
      | cons kw d2 =>
          obtain ⟨k2, v2⟩ := kw
          rw [compareDict, Bool.and_eq_true, Bool.and_eq_true] at h
          have hk12 : k1 = k2 := by simpa using h.1.1
          rw [lookupKey] at hv hw
          by_cases hk : k1 = k
          · rw [if_pos hk] at hv
            rw [if_pos (hk12 ▸ hk)] at hw
            cases hv; cases hw
            exact h.1.2
          · rw [if_neg hk] at hv
            rw [if_neg (hk12 ▸ hk)] at hw
            exact ih h.2 k v w hv hw

theorem compareDict_of_lookup {tol : ℚ} :
    ∀ {d1 d2 : List (String × PyVal)},
      dictKeys d1 = dictKeys d2 → (dictKeys d1).Nodup →
      (∀ k v w, lookupKey k d1 = some v → lookupKey k d2 = some w →
        compare tol v w = true) →
      compareDict tol d1 d2 = true := by
  intro d1
  induction d1 with
  | nil =>
      intro d2 hk _ _
      cases d2 with
      | nil => rw [compareDict]
      | cons kw d2 => simp [dictKeys] at hk
  | cons kv d1 ih =>
      intro d2 hk hnd hcomp
      obtain ⟨k1, v1⟩ := kv
      cases d2 with
      | nil => simp [dictKeys] at hk
      | cons kw d2 =>
          obtain ⟨k2, v2⟩ := kw
          have hks : k1 = k2 ∧ dictKeys d1 = dictKeys d2 := by
            simpa [dictKeys] using hk
          have hcons : dictKeys ((k1, v1) :: d1) = k1 :: dictKeys d1 := rfl
          rw [hcons, List.nodup_cons] at hnd
          rw [compareDict, Bool.and_eq_true, Bool.and_eq_true]
          refine ⟨⟨by simpa using hks.1, ?_⟩, ?_⟩
          · exact hcomp k1 v1 v2 (by rw [lookupKey, if_pos rfl])
              (by rw [lookupKey, if_pos hks.1.symm])
          · refine ih hks.2 hnd.2 ?_
            intro k v w hv hw
            have hkmem : k ∈ dictKeys d1 := mem_dictKeys_of_lookupKey hv
            have hne : k1 ≠ k := fun he => hnd.1 (he ▸ hkmem)
            refine hcomp k v w ?_ ?_
            · rw [lookupKey, if_neg hne]; exact hv
            · rw [lookupKey, if_neg (hks.1 ▸ hne)]; exact hw

/-- C4: for mappings (in the canonical sorted-key representation),
`compare` is true iff the two key sets coincide and the values compare
key-wise; differing key sets, of equal or different sizes, make the
mappings unequal. -/
theorem c4_mappings (tol : ℚ) (d1 d2 : List (String × PyVal))
    (h1 : (dictKeys d1).Sorted (· < ·)) (h2 : (dictKeys d2).Sorted (· < ·)) :
    compare tol (.dict d1) (.dict d2) = true ↔
      ((∀ k, k ∈ dictKeys d1 ↔ k ∈ dictKeys d2) ∧
        ∀ k v w, lookupKey k d1 = some v → lookupKey k d2 = some w →
          compare tol v w = true) := by
  rw [compare]
  constructor
  · intro h
    have hk := compareDict_keys h
    exact ⟨fun k => by rw [hk], compareDict_lookup h⟩
  · rintro ⟨hmem, hcomp⟩
    have hnd1 : (dictKeys d1).Nodup := h1.nodup
    have hnd2 : (dictKeys d2).Nodup := h2.nodup
    have hperm : List.Perm (dictKeys d1) (dictKeys d2) :=
      (List.perm_ext_iff_of_nodup hnd1 hnd2).mpr hmem
    have hkeys : dictKeys d1 = dictKeys d2 :=
      List.eq_of_perm_of_sorted hperm h1 h2
    exact compareDict_of_lookup hkeys hnd1 hcomp

/-- C4 witness: a concrete instance discharging the canonical-order
hypotheses. -/
theorem c4_mappings_witness :
    compare 1 (.dict [("a", .num (.int 1)), ("b", .num (.int 2))])
        (.dict [("a", .num (.int 1)), ("b", .num (.int 3))]) = true ↔
      ((∀ k, k ∈ dictKeys [("a", PyVal.num (.int 1)), ("b", PyVal.num (.int 2))] ↔
          k ∈ dictKeys [("a", PyVal.num (.int 1)), ("b", PyVal.num (.int 3))]) ∧
        ∀ k v w,
          lookupKey k [("a", PyVal.num (.int 1)), ("b", PyVal.num (.int 2))] = some v →
          lookupKey k [("a", PyVal.num (.int 1)), ("b", PyVal.num (.int 3))] = some w →
          compare 1 v w = true) :=
  c4_mappings 1 _ _
    (by simp [dictKeys, List.sorted_cons]; decide)
    (by simp [dictKeys, List.sorted_cons]; decide)

/-! ### Category strictness -/

/-- C6: `compare` is category-strict and total: two values of different
structural kinds always compare false (rather than raising — in the
embedding every function is total by construction); in particular
`compare({}, [])` and `compare({1,2,3}, [1,2,3])` are false. -/
theorem c6_category_strict :
    (∀ (tol : ℚ) (a b : PyVal), kindOf a ≠ kindOf b → compare tol a b = false)
    ∧ compare defaultTolerance (.dict []) (.list []) = false
    ∧ compare defaultTolerance
        (.set [.num (.int 1), .num (.int 2), .num (.int 3)])
        (.list [.num (.int 1), .num (.int 2), .num (.int 3)]) = false := by
  refine ⟨?_, ?_, ?_⟩
  · intro tol a b hk
    cases a <;> cases b <;> first
      | (exact absurd rfl hk)
      | simp [compare]
  · simp [compare]
  · simp [compare]

/-- C6 witness: a concrete cross-category pair. -/
theorem c6_category_strict_witness :
    kindOf (.str "a") ≠ kindOf (.num (.int 0))
    ∧ compare 0 (.str "a") (.num (.int 0)) = false :=
  ⟨by decide, c6_category_strict.1 0 (.str "a") (.num (.int 0)) (by decide)⟩

/-! ### The assertion wrapper -/

theorem strContains_middle (pre mid post : String) :
    strContains (pre ++ mid ++ post) mid := by
  unfold strContains
  exact ⟨pre.data, post.data, by rw [String.data_append, String.data_append]⟩

/-- C8 counterexample: with `print_objs_on_fail = false`, the failure
message for `0` vs `1` still contains the full string representations of
both objects — they occur inside the diff path itself — so "the message
contains the representations iff the flag is true" is false as stated. -/
theorem c8_counterexample :
    assert_compare (.num (.int 0)) (.num (.int 1)) false
        = .error "Objects differ: [\x270 != 1\x27]"
    ∧ strContains "Objects differ: [\x270 != 1\x27]" (pyRepr (.num (.int 0)))
    ∧ strContains "Objects differ: [\x270 != 1\x27]" (pyRepr (.num (.int 1))) := by
  refine ⟨?_, ?_, ?_⟩
  · have hc : compare defaultTolerance (.num (.int 0)) (.num (.int 1)) = false := by
      simp [compare, PyNum.toQ, defaultTolerance]
      norm_num
    rw [assert_compare, hc]
    simp only [Bool.false_eq_true, if_false]
    have hd : get_compound_diff (.num (.int 0)) (.num (.int 1))
        = [.msg "0 != 1"] := by
      simp [get_compound_diff, PyNum.toQ, PyNum.reprStr, defaultTolerance]
      norm_num
      rfl
    rw [assertMessage, hd]
    rfl
  · have hr : pyRepr (.num (.int 0)) = "0" := by rw [pyRepr]; decide
    rw [hr]
    exact ⟨"Objects differ: [\x27".data, " != 1\x27]".data, by decide⟩
  · have hr : pyRepr (.num (.int 1)) = "1" := by rw [pyRepr]; decide
    rw [hr]
    exact ⟨"Objects differ: [\x270 != ".data, "\x27]".data, by decide⟩

/-- C8 (amended): `assert_compare(a, b, print_objs_on_fail)` raises iff
`compare(a, b)` is false (in the embedding it is the only comparer
operation returning `Except`; `compare` and `get_compound_diff` are total
functions); the failure message contains the diff path from
`get_compound_diff`; and when `print_objs_on_fail` is true the message
additionally contains the full string representations of both objects.
(When the flag is false the dedicated representation section is omitted,
but the representations may still occur inside the diff path itself.) -/
theorem c8_amended :
    ∀ (a b : PyVal) (p : Bool),
      ((∃ m, assert_compare a b p = .error m)
          ↔ compare defaultTolerance a b = false)
      ∧ (∀ m, assert_compare a b p = .error m →
          strContains m (diffRepr (get_compound_diff a b))
          ∧ (p = true → strContains m (pyRepr a) ∧ strContains m (pyRepr b))) := by
  intro a b p
  by_cases hc : compare defaultTolerance a b = true
  · rw [assert_compare, hc]
    simp [hc]
  · have hc' : compare defaultTolerance a b = false := by
      cases h : compare defaultTolerance a b
      · rfl
      · exact absurd h hc
    rw [assert_compare, hc']
    simp only [Bool.false_eq_true, if_false]
    refine ⟨by simp [hc'], ?_⟩
    intro m hm
    have hm' : m = assertMessage a b p := by
      cases hm
      rfl
    subst hm'
    constructor
    · rw [assertMessage]
      exact strContains_middle "Objects differ: " _ _
    · intro hp
      subst hp
      constructor
      · have hmsg : assertMessage a b true
            = ("Objects differ: " ++ diffRepr (get_compound_diff a b)
                ++ ", objects: ") ++ pyRepr a ++ (", " ++ pyRepr b) := by
          rw [assertMessage]
          simp [String.append_assoc]
        rw [hmsg]
        exact strContains_middle _ _ _
      · have hmsg : assertMessage a b true
            = ("Objects differ: " ++ diffRepr (get_compound_diff a b)
                ++ ", objects: " ++ pyRepr a ++ ", ") ++ pyRepr b ++ "" := by
          rw [assertMessage]
          simp [String.append_assoc]
        rw [hmsg]
        exact strContains_middle _ _ _

/-- C8 amended witness: the concrete message for `0` vs `1` with the flag
set contains the diff path and both representations. -/
theorem c8_amended_witness :
    strContains (assertMessage (.num (.int 0)) (.num (.int 1)) true)
      (diffRepr (get_compound_diff (.num (.int 0)) (.num (.int 1))))
    ∧ strContains (assertMessage (.num (.int 0)) (.num (.int 1)) true)
      (pyRepr (.num (.int 0)))
    ∧ strContains (assertMessage (.num (.int 0)) (.num (.int 1)) true)
      (pyRepr (.num (.int 1))) := by
  have hc : compare defaultTolerance (.num (.int 0)) (.num (.int 1)) = false := by
    simp [compare, PyNum.toQ, defaultTolerance]
    norm_num
  have herr : assert_compare (.num (.int 0)) (.num (.int 1)) true
      = .error (assertMessage (.num (.int 0)) (.num (.int 1)) true) := by
    rw [assert_compare, hc]
    simp
  have h := (c8_amended (.num (.int 0)) (.num (.int 1)) true).2
    (assertMessage (.num (.int 0)) (.num (.int 1)) true) herr
  exact ⟨h.1, (h.2 rfl).1, (h.2 rfl).2⟩

/-! ### logutils: remove_old_files -/

namespace Logutils

theorem insertDesc_perm (x : String × Int) :
    ∀ l, List.Perm (insertDesc x l) (x :: l) := by
  intro l
  induction l with
  | nil => exact List.Perm.refl _
  | cons y ys ih =>
      rw [insertDesc]
      by_cases h : x.2 < y.2
      · rw [if_pos h]
        exact (List.Perm.cons y ih).trans (List.Perm.swap x y ys)
      · rw [if_neg h]

theorem sortDesc_perm : ∀ l, List.Perm (sortDesc l) l := by
  intro l
  induction l with
  | nil => exact List.Perm.refl _
  | cons x xs ih =>
      rw [sortDesc]
      exact (insertDesc_perm x (sortDesc xs)).trans (List.Perm.cons x ih)

theorem insertDesc_sorted {x : (String × Int)} :
    ∀ {l}, List.Sorted (fun a b => Prod.snd b ≤ Prod.snd a) l →
      List.Sorted (fun a b => Prod.snd b ≤ Prod.snd a) (insertDesc x l) := by
  intro l
  induction l with
  | nil => intro _; simp [insertDesc]
  | cons y ys ih =>
      intro h
      rw [List.sorted_cons] at h
      rw [insertDesc]
      by_cases hx : x.2 < y.2
      · rw [if_pos hx, List.sorted_cons]
        refine ⟨?_, ih h.2⟩
        intro z hz
        rcases List.mem_cons.mp ((insertDesc_perm x ys).mem_iff.mp hz) with rfl | hz2
        · exact le_of_lt hx
        · exact h.1 z hz2
      · rw [if_neg hx, List.sorted_cons]
        have hyx : y.2 ≤ x.2 := le_of_not_lt hx
        refine ⟨?_, List.sorted_cons.mpr h⟩
        intro z hz
        rcases List.mem_cons.mp hz with rfl | hz2
        · exact hyx
        · exact le_trans (h.1 z hz2) hyx

theorem sortDesc_sorted :
    ∀ l, List.Sorted (fun a b => Prod.snd b ≤ Prod.snd a) (sortDesc l) := by
  intro l
  induction l with
  | nil => simp [sortDesc]
  | cons x xs ih =>
      rw [sortDesc]
      exact insertDesc_sorted ih

theorem removeEach_eq_filter (fails : String → Bool) :
    ∀ fs, removeEach fails fs = fs.filter (fun f => !fails f) := by
  intro fs
  induction fs with
  | nil => rfl
  | cons f fs ih => cases h : fails f <;> simp [removeEach, List.filter_cons, h, ih]

end Logutils

/-- C9: `remove_old_files(rootDir, namePattern, maxFiles)` raises
`ValueError` for every negative `maxFiles` before removing anything; for
`maxFiles >= 0` it never raises: it keeps exactly the `min maxFiles n`
newest matches (every kept file is at least as new as every older match),
attempts to remove every older match, and swallows individual removal
failures (the result lists exactly the attempted removals that did not
fail). -/
theorem c9_remove_old_files (dir : Logutils.Dir) (pat : String → Bool) (maxFiles : Int) :
    (maxFiles < 0 →
      Logutils.remove_old_files dir pat maxFiles
        = .error ("maxFiles must be >= 0, got " ++ toString maxFiles))
    ∧ (0 ≤ maxFiles →
        Logutils.remove_old_files dir pat maxFiles
            = .ok ((((Logutils.lstFiles dir pat).drop maxFiles.toNat).map
                Prod.fst).filter (fun f => !dir.removeFails f))
        ∧ List.Perm
            ((Logutils.lstFiles dir pat).take maxFiles.toNat
              ++ (Logutils.lstFiles dir pat).drop maxFiles.toNat)
            (dir.entries.filter (fun e => pat e.1))
        ∧ ((Logutils.lstFiles dir pat).take maxFiles.toNat).length
            = min maxFiles.toNat (dir.entries.filter (fun e => pat e.1)).length
        ∧ ∀ kept ∈ (Logutils.lstFiles dir pat).take maxFiles.toNat,
            ∀ old ∈ (Logutils.lstFiles dir pat).drop maxFiles.toNat,
              old.2 ≤ kept.2) := by
  constructor
  · intro h
    rw [Logutils.remove_old_files, if_pos h]
  · intro h
    have hnotneg : ¬maxFiles < 0 := not_lt.mpr h
    refine ⟨?_, ?_, ?_, ?_⟩
    · rw [Logutils.remove_old_files, if_neg hnotneg,
        Logutils.removeEach_eq_filter]
    · rw [List.take_append_drop]
      exact Logutils.sortDesc_perm _
    · rw [List.length_take]
      congr 1
      exact (Logutils.sortDesc_perm _).length_eq
    · intro kept hk old ho
      have hs : List.Pairwise (fun a b => Prod.snd b ≤ Prod.snd a)
          (Logutils.lstFiles dir pat) :=
        Logutils.sortDesc_sorted (dir.entries.filter (fun e => pat e.1))
      rw [← List.take_append_drop maxFiles.toNat (Logutils.lstFiles dir pat)] at hs
      exact (List.pairwise_append.mp hs).2.2 kept hk old ho

/-- C9 witness: a three-file directory.  With `maxFiles = 1` the two
older matches are attempted and removed; with `maxFiles = -1` the call
fails up front. -/
theorem c9_remove_old_files_witness :
    Logutils.remove_old_files
        ⟨[("a.log", 1), ("b.log", 3), ("c.log", 2)], fun _ => false⟩
        (fun _ => true) (-1)
      = .error ("maxFiles must be >= 0, got " ++ toString (-1 : Int))
    ∧ Logutils.remove_old_files
        ⟨[("a.log", 1), ("b.log", 3), ("c.log", 2)], fun _ => false⟩
        (fun _ => true) 1
      = .ok ["c.log", "a.log"] := by
  constructor
  · exact (c9_remove_old_files _ _ _).1 (by norm_num)
  · have h := ((c9_remove_old_files
        ⟨[("a.log", 1), ("b.log", 3), ("c.log", 2)], fun _ => false⟩
        (fun _ => true) 1).2 (by norm_num)).1
    rw [h]
    exact congrArg Except.ok (by decide)

/-! ### logutils: wrap_line -/

namespace Logutils

theorem pySlice_length_le (s : List Char) (i m : Int) (hi : 0 ≤ i) (hm : 0 ≤ m) :
    (pySlice s i (i + m)).length ≤ m.toNat := by
  rw [pySlice, List.length_drop, List.length_take, pyIdx, pyIdx,
    if_neg (not_lt.mpr hi), if_neg (not_lt.mpr (by omega : (0 : Int) ≤ i + m))]
  omega

theorem wrapLoop_prefixed (s pfx : List Char) (m : Int) :
    ∀ (fuel : Nat) (i c : Int), ∀ l ∈ wrapLoop s pfx m fuel i c, pfx <+: l := by
  intro fuel
  induction fuel with
  | zero => intro i c l hl; simp [wrapLoop] at hl
  | succ n ih =>
      intro i c l hl
      rw [wrapLoop] at hl
      by_cases hcond : i < (s.length : Int) ∧ c ≠ 0
      · rw [if_pos hcond] at hl
        rcases List.mem_cons.mp hl with rfl | hl2
        · exact ⟨_, rfl⟩
        · exact ih _ _ l hl2
      · rw [if_neg hcond] at hl
        cases hl

theorem wrapLoop_length_le (s pfx : List Char) (m : Int) (hm : 0 ≤ m) :
    ∀ (fuel : Nat) (i c : Int), 0 ≤ i →
      ∀ l ∈ wrapLoop s pfx m fuel i c, l.length ≤ pfx.length + m.toNat := by
  intro fuel
  induction fuel with
  | zero => intro i c _ l hl; simp [wrapLoop] at hl
  | succ n ih =>
      intro i c hi l hl
      rw [wrapLoop] at hl
      by_cases hcond : i < (s.length : Int) ∧ c ≠ 0
      · rw [if_pos hcond] at hl
        rcases List.mem_cons.mp hl with rfl | hl2
        · rw [List.length_append]
          exact Nat.add_le_add_left (pySlice_length_le s i m hi hm) _
        · exact ih (i + m) (c - 1) (by omega) l hl2
      · rw [if_neg hcond] at hl
        cases hl

theorem wrapLoop_count (s pfx : List Char) (m : Int) :
    ∀ (fuel : Nat) (i c : Int), 0 ≤ c →
      (wrapLoop s pfx m fuel i c).length ≤ c.toNat := by
  intro fuel
  induction fuel with
  | zero => intro i c _; simp [wrapLoop]
  | succ n ih =>
      intro i c hc
      rw [wrapLoop]
      by_cases hcond : i < (s.length : Int) ∧ c ≠ 0
      · rw [if_pos hcond, List.length_cons]
        have hbound := ih (i + m) (c - 1) (by rcases hcond with ⟨_, hne⟩; omega)
        rcases hcond with ⟨_, hne⟩
        omega
      · rw [if_neg hcond]
        simp

end Logutils

/-- C10: for a string longer than `maxlen` and a prefix shorter than
`maxlen`, every line yielded by `wrap_line` has length at most `maxlen`,
every line after the first starts with the prefix, and when
`maxlines > 0` at most `maxlines` lines are yielded (the remaining tail
is dropped); a string that fits in `maxlen` is yielded whole as the
single line. -/
theorem c10_wrap_line (s pfx : List Char) (maxlen maxlines : Int) :
    (maxlen < (s.length : Int) → (pfx.length : Int) < maxlen →
      (∀ l ∈ Logutils.wrap_line s maxlines maxlen pfx, (l.length : Int) ≤ maxlen)
      ∧ (∀ l ∈ (Logutils.wrap_line s maxlines maxlen pfx).tail, pfx <+: l)
      ∧ (0 < maxlines →
          ((Logutils.wrap_line s maxlines maxlen pfx).length : Int) ≤ maxlines))
    ∧ ((s.length : Int) ≤ maxlen → Logutils.wrap_line s maxlines maxlen pfx = [s]) := by
  constructor
  · intro hlong hpfx
    have hml : 0 ≤ maxlen := by omega
    have hnot : ¬(s.length : Int) ≤ maxlen := not_le.mpr hlong
    refine ⟨?_, ?_, ?_⟩
    · intro l hl
      rw [Logutils.wrap_line, if_neg hnot] at hl
      rcases List.mem_cons.mp hl with rfl | hl2
      · have hfst : (Logutils.pySlice s 0 maxlen).length ≤ maxlen.toNat := by
          have := Logutils.pySlice_length_le s 0 maxlen (le_refl 0) hml
          simpa using this
        omega
      · have := Logutils.wrapLoop_length_le s pfx (maxlen - (pfx.length : Int))
          (by omega) (s.length + 1) maxlen (maxlines - 1) (by omega) l ?_
        · omega
        · exact hl2
    · intro l hl
      rw [Logutils.wrap_line, if_neg hnot] at hl
      simp only [List.tail_cons] at hl
      exact Logutils.wrapLoop_prefixed s pfx _ _ _ _ l hl
    · intro hpos
      rw [Logutils.wrap_line, if_neg hnot, List.length_cons]
      have := Logutils.wrapLoop_count s pfx (maxlen - (pfx.length : Int))
        (s.length + 1) maxlen (maxlines - 1) (by omega)
      omega
  · intro hshort
    rw [Logutils.wrap_line, if_pos hshort]

/-- C10 witness: wrapping an eight-character string at width 4 with the
default two-character prefix and a two-line budget. -/
theorem c10_wrap_line_witness :
    ((4 : Int) < (("abcdefgh".data).length : Int))
    ∧ ((("- ".data).length : Int) < 4)
    ∧ (∀ l ∈ Logutils.wrap_line ("abcdefgh".data) 2 4 ("- ".data),
        (l.length : Int) ≤ 4)
    ∧ (∀ l ∈ (Logutils.wrap_line ("abcdefgh".data) 2 4 ("- ".data)).tail,
        ("- ".data) <+: l)
    ∧ ((Logutils.wrap_line ("abcdefgh".data) 2 4 ("- ".data)).length : Int) ≤ 2 := by
  have h := (c10_wrap_line ("abcdefgh".data) ("- ".data) 4 2).1 (by decide) (by decide)
  exact ⟨by decide, by decide, h.1, h.2.1, h.2.2 (by decide)⟩

end Brennivin
